import Mathlib

/-!
Verification development for the networked-globe demo (`src/main.cc`).

The simulation core (graph construction, per-tick propagation, dynamic
city-vertex production) is embedded shallowly over exact rationals: the
C++ `float` fields become `ℚ`, the literal step `0.02` becomes `1/50`,
and the literal threshold `0.75` is compared via squared distance (a
justification lemma relating this to the real square-root comparison is
proved below).  Where a property genuinely depends on the float
rounding of `conn->elapsed += 0.02` — the accumulated value falls short
of `1.0` on the 50th increment and terminates above `1.0` — a second,
bit-exact model of the tick is given (`stepConnAtF` and friends),
representing binary32/binary64 values as scaled integers with
round-to-nearest-even roundings, and those properties are settled
against it.  The edge-geometry generator, which renormalizes vectors to
unit length, is embedded over `ℝ`.

Structure and field names follow `main.cc` where Lean allows it:
`demo::connection`, `demo::graph_vertex`, `demo::step_connections`,
`demo::update_cities_mesh`, `build_connection_geometry`.
-/

namespace Globe

/-- 3-component vector over the rationals, standing for `glm::vec3`
positions used by the simulation (which never renormalizes them). -/
abbrev Q3 : Type := ℚ × ℚ × ℚ

/-- Squared Euclidean distance between two positions.  The source
compares `glm::distance(from, to) < 0.75`; since both sides are
nonnegative this is equivalent to `dist2 from to < 0.75 ^ 2`, which
keeps the embedding inside `ℚ` (see `sqrt_dist_lt_iff`). -/
def dist2 (a b : Q3) : ℚ :=
  (a.1 - b.1) ^ 2 + (a.2.1 - b.2.1) ^ 2 + (a.2.2 - b.2.2) ^ 2

/-- `demo::connection` (src/main.cc lines 307-313), minus the owned
`mesh` pointer: the mesh is immutable render-only geometry, modelled
separately by `build_connection_geometry` below, and no simulation
operation reads it. -/
structure connection where
  active : Bool
  elapsed : ℚ
  target_vertex : ℕ
  deriving DecidableEq

/-- `demo::graph_vertex` (src/main.cc lines 315-319). -/
structure graph_vertex where
  position : Q3
  connections : List connection
  deriving DecidableEq

/-- `std::vector<graph_vertex> graph_`. -/
abbrev Graph : Type := List graph_vertex

/-- Replace the element at index `i` by `f` of it; out-of-range indices
leave the list unchanged (the source never indexes out of range, which
is exactly what the safety claim establishes). -/
def modifyIdx {α : Type} (l : List α) (i : ℕ) (f : α → α) : List α :=
  match l, i with
  | [], _ => []
  | a :: as, 0 => f a :: as
  | a :: as, n + 1 => a :: modifyIdx as n f

/-- The connection at `graph_[vi].connections[ci]`, if any. -/
def getConn (g : Graph) (vi ci : ℕ) : Option connection :=
  g[vi]?.bind fun v => v.connections[ci]?

/-- Overwrite `graph_[vi].connections[ci]` with `c`. -/
def setConn (g : Graph) (vi ci : ℕ) (c : connection) : Graph :=
  modifyIdx g vi fun v =>
    { v with connections := modifyIdx v.connections ci fun _ => c }

/-- The connection list of `graph_[vi]` (empty when out of range). -/
def connsOf (g : Graph) (vi : ℕ) : List connection :=
  match g[vi]? with
  | some v => v.connections
  | none => []

/-- Number of connections of `graph_[vi]`. -/
def connCount (g : Graph) (vi : ℕ) : ℕ :=
  (connsOf g vi).length

/-- The cascade scan of src/main.cc lines 284-293: walk the target's
connections in stored order with a remaining-activation budget; an
inactive connection is switched on and spends one unit of budget, and
the loop breaks when the budget is exhausted (`if (++activated == 3)
break;` — a break is the same as continuing with budget 0, which
touches nothing). -/
def activateScan : ℕ → List connection → List connection
  | _, [] => []
  | 0, c :: cs => c :: cs
  | k + 1, c :: cs =>
    if c.active then c :: activateScan (k + 1) cs
    else { c with active := true } :: activateScan k cs

/-- Apply the cascade scan (budget 3) at vertex `ti`:
`graph_[conn->target_vertex]` in src/main.cc line 283. -/
def cascadeAt (g : Graph) (ti : ℕ) : Graph :=
  modifyIdx g ti fun v => { v with connections := activateScan 3 v.connections }

/-- One inner-loop iteration of `demo::step_connections`
(src/main.cc lines 276-295) on the connection at `(vi, ci)`:
skip when inactive or already completed, otherwise advance `elapsed` by
the fixed step `0.02 = 1/50`, and on reaching `1.0` run the cascade at
the target vertex.  The step is idealized here as the exact rational
`1/50`; the compiled program's binary32 accumulation of the binary64
literal `0.02` behaves differently near `1.0` (it completes on tick 51
of an edge's life, not 50, and terminates above `1.0`) — `stepConnAtF`
below models that arithmetic exactly, and the claims that hinge on it
are settled against that model. -/
def stepConnAt (g : Graph) (vi ci : ℕ) : Graph :=
  match getConn g vi ci with
  | none => g
  | some c =>
    if c.active = false ∨ 1 ≤ c.elapsed then g
    else
      let c' : connection := { c with elapsed := c.elapsed + 1 / 50 }
      let g' := setConn g vi ci c'
      if 1 ≤ c'.elapsed then cascadeAt g' c.target_vertex else g'

/-- The inner `for (auto &conn : vertex.connections)` loop over the
connections of vertex `vi`.  The range-for's iterator extent is the
connection count on entering the vertex; no operation during the tick
adds or removes connections, so the count is stable. -/
def stepVertexConns (g : Graph) (vi : ℕ) : Graph :=
  (List.range (connCount g vi)).foldl (fun h ci => stepConnAt h vi ci) g

/-- `demo::step_connections` (src/main.cc lines 272-297): the outer
`for (auto &vertex : graph_)` loop. -/
def step_connections (g : Graph) : Graph :=
  (List.range g.length).foldl (fun h vi => stepVertexConns h vi) g

/-- `n` simulation ticks. -/
def stepN (g : Graph) : ℕ → Graph
  | 0 => g
  | n + 1 => stepN (step_connections g) n

/-- `demo::initialize_connections` (src/main.cc lines 100-135), taking
the already-built vertex position list (`initialize_graph` converts
city latitude/longitude pairs to unit-sphere positions with
transcendental functions; the claims quantify over positions directly)
and the random activation draw `(std::rand() % 150) == 0` as an
explicit seeding function of the pair `(i, j)`.  For every ordered pair
`i ≠ j` with `distance < 0.75` (squared form, see `dist2`), a
connection to `j` is appended to vertex `i` in `j`-order, with
`elapsed = 0` and `active` given by the seed.  The owned mesh built
here is modelled separately by `build_connection_geometry`.
`initConnsRow` is the inner `for (int j ...)` loop for source vertex
`i`; `initConnections` below assembles the vertices. -/
def initConnsRow (ps : List Q3) (seed : ℕ → ℕ → Bool) (i : ℕ) : List connection :=
  (List.range ps.length).filterMap fun j =>
    if i = j then none
    else if dist2 (ps.getD i (0, 0, 0)) (ps.getD j (0, 0, 0)) < (3 / 4) ^ 2 then
      some { active := seed i j, elapsed := 0, target_vertex := j }
    else none

def initConnections (ps : List Q3) (seed : ℕ → ℕ → Bool) : Graph :=
  (List.range ps.length).map fun i =>
    { position := ps.getD i (0, 0, 0), connections := initConnsRow ps seed i }

/-- The maximum `elapsed` among a vertex's connections:
`std::max_element(connections.begin(), connections.end(), ...)` in
src/main.cc lines 259-261 (only the maximal value is consumed). -/
def maxElapsed (cs : List connection) : ℚ :=
  match cs with
  | [] => 0
  | c :: rest => rest.foldl (fun m d => max m d.elapsed) c.elapsed

/-- `demo::update_cities_mesh` (src/main.cc lines 248-270): the list of
`(position, alpha)` entries written through the mapped vertex buffer —
a vertex with no connections is skipped, a vertex whose maximal
`elapsed` is zero is skipped, and otherwise
`alpha = min(1.0f, elapsed * 2.0f)` is written with the position. -/
def update_cities_mesh (g : Graph) : List (Q3 × ℚ) :=
  g.filterMap fun v =>
    if v.connections.isEmpty then none
    else
      let e := maxElapsed v.connections
      if e = 0 then none
      else some (v.position, min 1 (e * 2))

/-- `num_active_cities_`: incremented once per entry written by
`update_cities_mesh`. -/
def num_active_cities (g : Graph) : ℕ :=
  (update_cities_mesh g).length

/-- The per-edge `tex_offset` uniform values passed while drawing
active connections (`demo::render_connections`, src/main.cc lines
233-243): the raw `conn->elapsed` of each connection with `active`
set, in iteration order. -/
def texOffsets (g : Graph) : List ℚ :=
  g.flatMap fun v =>
    v.connections.filterMap fun c => if c.active then some c.elapsed else none

/-- Number of connections switched from inactive to active between two
runs of the same connection list (positionwise). -/
def newlyActivated (before after : List connection) : ℕ :=
  (before.zip after).countP fun p => !p.1.active && p.2.active

/-- Stored `elapsed` at `(vi, ci)` (0 when out of range). -/
def elapsedAt (g : Graph) (vi ci : ℕ) : ℚ :=
  ((getConn g vi ci).map connection.elapsed).getD 0

/-- Stored `active` flag at `(vi, ci)` (`false` when out of range). -/
def activeAt (g : Graph) (vi ci : ℕ) : Bool :=
  ((getConn g vi ci).map connection.active).getD false

/-- How each connection looks after the cascade at `ti`: only
connections of vertex `ti` that were inactive with fewer than 3
inactive predecessors are switched on; everything else is unchanged. -/
def cascadeMark (g : Graph) (ti vi ci : ℕ) (c : connection) : connection :=
  if vi = ti ∧ c.active = false ∧ (((connsOf g ti).take ci).countP fun e => !e.active) < 3
  then { c with active := true } else c

/-- Run a sequence of tick iterations, one per `(vertex, connection)`
index pair. -/
def runOps (g : Graph) (ops : List (ℕ × ℕ)) : Graph :=
  ops.foldl (fun h p => stepConnAt h p.1 p.2) g

/-- The index pairs visited by one call of `demo::step_connections`, in
visiting order. -/
def stepOps (g : Graph) : List (ℕ × ℕ) :=
  (List.range g.length).flatMap fun vi =>
    (List.range (connCount g vi)).map fun ci => (vi, ci)

/-- Invariant satisfied by every connection of every reachable graph
state: its target index is a valid vertex index, its `elapsed` is a
multiple `k/50` of the fixed step with `k ≤ 50` (so it lands exactly on
`1.0` and never overshoots), and an inactive connection has never been
advanced. -/
def ConnInv (N : ℕ) (c : connection) : Prop :=
  c.target_vertex < N ∧
  (∃ k : ℕ, k ≤ 50 ∧ c.elapsed = (k : ℚ) / 50) ∧
  (c.active = false → c.elapsed = 0)

def GraphInv (g : Graph) : Prop :=
  ∀ v ∈ g, ∀ c ∈ v.connections, ConnInv g.length c

/-! ### Edge geometry (`build_connection_geometry`), over `ℝ` -/

/-- 3-component real vector for the geometry generator (which, unlike
the simulation, renormalizes to unit length). -/
abbrev R3 : Type := ℝ × ℝ × ℝ

noncomputable def radd (a b : R3) : R3 := (a.1 + b.1, a.2.1 + b.2.1, a.2.2 + b.2.2)

noncomputable def rsub (a b : R3) : R3 := (a.1 - b.1, a.2.1 - b.2.1, a.2.2 - b.2.2)

noncomputable def rsmul (s : ℝ) (v : R3) : R3 := (s * v.1, s * v.2.1, s * v.2.2)

/-- `glm::length`. -/
noncomputable def rnorm (v : R3) : ℝ :=
  Real.sqrt (v.1 ^ 2 + v.2.1 ^ 2 + v.2.2 ^ 2)

/-- `glm::normalize`: `v / length(v)` (the source only ever applies it
to blends of unit vectors, which are nonzero). -/
noncomputable def normalize3 (v : R3) : R3 := rsmul (1 / rnorm v) v

/-- `build_connection_geometry` (src/main.cc lines 39-57): 256 samples,
parameter `t = i / (num_steps - 1)`, each the renormalized linear blend
`normalize(from + t*(to - from))` scaled by the parabolic bulge
`s = 1 + max_height * (1 - 4*(t - 0.5)*(t - 0.5))`, paired with `t`. -/
noncomputable def build_connection_geometry
    (from_normal to_normal : R3) (max_height : ℝ) : List (R3 × ℝ) :=
  (List.range 256).map fun (i : ℕ) =>
    let t : ℝ := (i : ℝ) / (256 - 1)
    let v := normalize3 (radd from_normal (rsmul t (rsub to_normal from_normal)))
    let s : ℝ := 1 + max_height * (1 - 4 * (t - 0.5) * (t - 0.5))
    (rsmul s v, t)

/-- The spec's bulge profile `scale(t) = 1 + height * (1 − 4 (t−1/2)²)`. -/
noncomputable def scaleSpec (height t : ℝ) : ℝ := 1 + height * (1 - 4 * (t - 1 / 2) ^ 2)

/-- Concrete two-city input used by witnesses: unit-sphere positions at
squared distance `2/5` (distance ≈ 0.632 < 0.75), with only the edge
`0 → 1` seeded active. -/
def psW : List Q3 := [(4 / 5, 3 / 5, 0), (1, 0, 0)]

def seedW : ℕ → ℕ → Bool := fun i j => i == 0 && j == 1

/-- The graph `initConnections psW seedW` builds (proved below). -/
def gW0 : Graph :=
  [{ position := (4 / 5, 3 / 5, 0),
     connections := [{ active := true, elapsed := 0, target_vertex := 1 }] },
   { position := (1, 0, 0),
     connections := [{ active := false, elapsed := 0, target_vertex := 0 }] }]

/-- The same graph one tick before the seeded edge completes. -/
def gW49 : Graph :=
  [{ position := (4 / 5, 3 / 5, 0),
     connections := [{ active := true, elapsed := 49 / 50, target_vertex := 1 }] },
   { position := (1, 0, 0),
     connections := [{ active := false, elapsed := 0, target_vertex := 0 }] }]

/-- A one-vertex graph state with a half-advanced connection. -/
def gA : Graph :=
  [{ position := (4 / 5, 3 / 5, 0),
     connections := [{ active := true, elapsed := 1 / 2, target_vertex := 1 }] }]

/-! ### Exact model of the float accumulation (`conn->elapsed += 0.02`)

The simulation fields above are idealized over `ℚ` with an exact step
`1/50`.  The compiled program stores `elapsed` as an IEEE binary32
`float` and adds the binary64 literal `0.02`
(src/main.cc line 280), so the accumulated value differs near `1.0`:
it falls short of `1.0` on the 50th increment and terminates strictly
above `1.0`.  The model below captures that arithmetic exactly.  Every
binary32/binary64 value in the program's range is an integer multiple
of `2^-58`, so a stored value `x` is kept as the natural number
`x * 2^58`, and the two IEEE roundings (of the binary64 addition
result, and of the binary64-to-binary32 conversion on assignment) are
round-to-nearest, ties-to-even, at the appropriate bit position.  All
operations are on `ℕ`, so concrete float states evaluate by `decide`
(kernel-checked integer arithmetic). -/

/-- Floor of log₂ (fuel-bounded; fuel 256 covers every scaled value of
the program's range, which sits far below `2^256`). -/
def ilog2F : ℕ → ℕ → ℕ
  | 0, _ => 0
  | fuel + 1, n => if n ≤ 1 then 0 else 1 + ilog2F fuel (n / 2)

def ilog2 (n : ℕ) : ℕ := ilog2F 256 n

/-- `n / 2^k` rounded to the nearest integer, ties to even. -/
def rne (n k : ℕ) : ℕ :=
  if 2 * (n % 2 ^ k) < 2 ^ k then n / 2 ^ k
  else if 2 ^ k < 2 * (n % 2 ^ k) then n / 2 ^ k + 1
  else if (n / 2 ^ k) % 2 = 0 then n / 2 ^ k else n / 2 ^ k + 1

/-- Round a nonnegative scaled value to a `p`-bit-significand binary
float, to nearest with ties to even: `p = 53` is binary64 (the
addition's rounding), `p = 24` is binary32 (the conversion on
assignment back to the `float` field). -/
def fround (p n : ℕ) : ℕ :=
  if n = 0 then 0
  else if ilog2 n + 1 ≤ p then n
  else rne n (ilog2 n + 1 - p) * 2 ^ (ilog2 n + 1 - p)

/-- The binary64 value of the literal `0.02`, scaled by `2^58`
(`0.02 * 2^58 = 5764607523034234.88` rounds to this). -/
def c02d : ℕ := 5764607523034235

/-- `1.0` scaled by `2^58`.  The guard `conn->elapsed >= 1.0`
(src/main.cc lines 278 and 281) promotes the `float` to binary64
exactly, so it is the exact comparison `one58 ≤ ·` on scaled values. -/
def one58 : ℕ := 2 ^ 58

/-- `conn->elapsed += 0.02` on the stored binary32 value: promote to
binary64 (exact), add the binary64 literal (first rounding), convert
back to binary32 on assignment (second rounding). -/
def stepElapsedF (f : ℕ) : ℕ := fround 24 (fround 53 (f + c02d))

/-- The stored `elapsed` of an active edge after `n` ticks of
src/main.cc lines 278-280, under exact IEEE semantics (skip once the
guard `elapsed >= 1.0` holds, else add `0.02`). -/
def elapsedAfterF : ℕ → ℕ
  | 0 => 0
  | n + 1 =>
    if one58 ≤ elapsedAfterF n then elapsedAfterF n
    else stepElapsedF (elapsedAfterF n)

/-- `demo::connection` with the stored `elapsed` kept as the scaled
binary32 integer: the float-exact counterpart of `connection`. -/
structure connectionF where
  active : Bool
  elapsedS : ℕ
  target_vertex : ℕ
  deriving DecidableEq

/-- `demo::graph_vertex` restricted to the fields the tick reads: the
position is immutable render-only data that `step_connections` never
reads, and omitting it keeps float states kernel-decidable. -/
structure graph_vertexF where
  connections : List connectionF
  deriving DecidableEq

abbrev GraphF : Type := List graph_vertexF

def getConnF (g : GraphF) (vi ci : ℕ) : Option connectionF :=
  g[vi]?.bind fun v => v.connections[ci]?

def setConnF (g : GraphF) (vi ci : ℕ) (c : connectionF) : GraphF :=
  modifyIdx g vi fun v =>
    { v with connections := modifyIdx v.connections ci fun _ => c }

/-- The cascade scan (src/main.cc lines 284-293) on float states; it
touches only `active` flags, so it is the same scan as `activateScan`. -/
def activateScanF : ℕ → List connectionF → List connectionF
  | _, [] => []
  | 0, c :: cs => c :: cs
  | k + 1, c :: cs =>
    if c.active then c :: activateScanF (k + 1) cs
    else { c with active := true } :: activateScanF k cs

def cascadeAtF (g : GraphF) (ti : ℕ) : GraphF :=
  modifyIdx g ti fun v => { v with connections := activateScanF 3 v.connections }

/-- One inner-loop iteration of `demo::step_connections` on a float
state: identical control flow to `stepConnAt`, with the increment and
the `>= 1.0` guard in exact IEEE float semantics. -/
def stepConnAtF (g : GraphF) (vi ci : ℕ) : GraphF :=
  match getConnF g vi ci with
  | none => g
  | some c =>
    if c.active = false ∨ one58 ≤ c.elapsedS then g
    else
      let c' : connectionF := { c with elapsedS := stepElapsedF c.elapsedS }
      let g' := setConnF g vi ci c'
      if one58 ≤ c'.elapsedS then cascadeAtF g' c.target_vertex else g'

def connCountF (g : GraphF) (vi : ℕ) : ℕ :=
  match g[vi]? with
  | some v => v.connections.length
  | none => 0

def stepVertexConnsF (g : GraphF) (vi : ℕ) : GraphF :=
  (List.range (connCountF g vi)).foldl (fun h ci => stepConnAtF h vi ci) g

/-- `demo::step_connections` on a float state. -/
def step_connectionsF (g : GraphF) : GraphF :=
  (List.range g.length).foldl (fun h vi => stepVertexConnsF h vi) g

def stepNF (g : GraphF) : ℕ → GraphF
  | 0 => g
  | n + 1 => stepNF (step_connectionsF g) n

/-- The per-edge `tex_offset` reads of `demo::render_connections`
(src/main.cc line 239) on a float state: the raw stored `elapsed` of
each active connection, passed with no clamp. -/
def texOffsetsF (g : GraphF) : List ℕ :=
  g.flatMap fun v =>
    v.connections.filterMap fun c => if c.active then some c.elapsedS else none

/-- The float state of the constructed two-city scenario graph (edge
`0 → 1` seeded active at elapsed `0`): same activation flags and
targets as the construction, elapsed scaled by `2^58`, positions
omitted. -/
def gF0 : GraphF :=
  [{ connections := [{ active := true, elapsedS := 0, target_vertex := 1 }] },
   { connections := [{ active := false, elapsedS := 0, target_vertex := 0 }] }]

/-! ### Helper lemmas: `modifyIdx` -/

theorem length_modifyIdx {α : Type} (l : List α) (i : ℕ) (f : α → α) :
    (modifyIdx l i f).length = l.length := by
  induction l generalizing i with
  | nil => rfl
  | cons a as ih =>
    cases i with
    | zero => rfl
    | succ n => simpa [modifyIdx] using ih n

theorem getElem?_modifyIdx_self {α : Type} (l : List α) (i : ℕ) (f : α → α) :
    (modifyIdx l i f)[i]? = l[i]?.map f := by
  induction l generalizing i with
  | nil => rfl
  | cons a as ih =>
    cases i with
    | zero => simp [modifyIdx]
    | succ n => simpa [modifyIdx] using ih n

theorem getElem?_modifyIdx_ne {α : Type} (l : List α) (i j : ℕ) (f : α → α)
    (h : j ≠ i) : (modifyIdx l i f)[j]? = l[j]? := by
  induction l generalizing i j with
  | nil => rfl
  | cons a as ih =>
    cases i with
    | zero =>
      cases j with
      | zero => exact absurd rfl h
      | succ m => simp [modifyIdx]
    | succ n =>
      cases j with
      | zero => simp [modifyIdx]
      | succ m => simpa [modifyIdx] using ih n m (fun hc => h (by omega))

theorem mem_modifyIdx {α : Type} (l : List α) (i : ℕ) (f : α → α) (a' : α)
    (h : a' ∈ modifyIdx l i f) : a' ∈ l ∨ ∃ a ∈ l, a' = f a := by
  induction l generalizing i with
  | nil => simp [modifyIdx] at h
  | cons a as ih =>
    cases i with
    | zero =>
      rcases List.mem_cons.mp h with h0 | h0
      · exact Or.inr ⟨a, List.mem_cons_self .., h0⟩
      · exact Or.inl (List.mem_cons_of_mem _ h0)
    | succ n =>
      rcases List.mem_cons.mp h with h0 | h0
      · exact Or.inl (h0 ▸ List.mem_cons_self ..)
      · rcases ih n h0 with h1 | ⟨b, hb, hb'⟩
        · exact Or.inl (List.mem_cons_of_mem _ h1)
        · exact Or.inr ⟨b, List.mem_cons_of_mem _ hb, hb'⟩

/-! ### Helper lemmas: `activateScan` -/

theorem length_activateScan (k : ℕ) (cs : List connection) :
    (activateScan k cs).length = cs.length := by
  induction cs generalizing k with
  | nil => cases k <;> rfl
  | cons c cs ih =>
    cases k with
    | zero => rfl
    | succ m =>
      by_cases hc : c.active = true <;> simp [activateScan, hc, ih]

theorem getElem?_activateScan (k : ℕ) (cs : List connection) (i : ℕ) :
    (activateScan k cs)[i]? = cs[i]?.map fun d =>
      if d.active = false ∧ ((cs.take i).countP fun e => !e.active) < k
      then { d with active := true } else d := by
  induction cs generalizing k i with
  | nil => cases k <;> simp [activateScan]
  | cons c cs ih =>
    cases k with
    | zero =>
      cases i with
      | zero => cases hc : c.active <;> simp [activateScan, hc]
      | succ n =>
        simp only [activateScan, List.getElem?_cons_succ]
        cases hn : cs[n]? with
        | none => simp
        | some d => simp
    | succ m =>
      cases hc : c.active with
      | true =>
        cases i with
        | zero => simp [activateScan, hc]
        | succ n =>
          simp only [activateScan, hc, if_true, List.getElem?_cons_succ,
            List.take_succ_cons, List.countP_cons, hc]
          rw [ih (m + 1) n]
          simp
      | false =>
        cases i with
        | zero => simp [activateScan, hc]
        | succ n =>
          simp only [activateScan, hc, Bool.false_eq_true, if_false, List.getElem?_cons_succ,
            List.take_succ_cons, List.countP_cons]
          rw [ih m n]
          cases hn : cs[n]? with
          | none => simp
          | some d =>
            simp only [Option.map_some', Option.some.injEq]
            by_cases hd : d.active = false
            · have : ((List.countP (fun e => !e.active) (List.take n cs)) + 1 < m + 1) ↔
                  ((List.countP (fun e => !e.active) (List.take n cs)) < m) := by omega
              simp [hd, this]
            · simp [hd]

theorem mem_activateScan (k : ℕ) (cs : List connection) (d : connection)
    (h : d ∈ activateScan k cs) :
    d ∈ cs ∨ ∃ c ∈ cs, c.active = false ∧ d = { c with active := true } := by
  induction cs generalizing k with
  | nil => cases k <;> simp [activateScan] at h
  | cons c cs ih =>
    cases k with
    | zero => exact Or.inl h
    | succ m =>
      cases hc : c.active with
      | true =>
        simp only [activateScan, hc, if_true] at h
        rcases List.mem_cons.mp h with h0 | h0
        · exact Or.inl (h0 ▸ List.mem_cons_self ..)
        · rcases ih (m + 1) h0 with h1 | ⟨b, hb, hb1, hb2⟩
          · exact Or.inl (List.mem_cons_of_mem _ h1)
          · exact Or.inr ⟨b, List.mem_cons_of_mem _ hb, hb1, hb2⟩
      | false =>
        simp only [activateScan, hc, Bool.false_eq_true, if_false] at h
        rcases List.mem_cons.mp h with h0 | h0
        · exact Or.inr ⟨c, List.mem_cons_self .., hc, h0⟩
        · rcases ih m h0 with h1 | ⟨b, hb, hb1, hb2⟩
          · exact Or.inl (List.mem_cons_of_mem _ h1)
          · exact Or.inr ⟨b, List.mem_cons_of_mem _ hb, hb1, hb2⟩

theorem newlyActivated_self (ds : List connection) : newlyActivated ds ds = 0 := by
  induction ds with
  | nil => rfl
  | cons d ds ihd =>
    simp only [newlyActivated, List.zip_cons_cons, List.countP_cons] at ihd ⊢
    simp only [ihd]
    cases d.active <;> simp

theorem newlyActivated_activateScan (k : ℕ) (cs : List connection) :
    newlyActivated cs (activateScan k cs) =
      min k (cs.countP fun e => !e.active) := by
  induction cs generalizing k with
  | nil => cases k <;> simp [newlyActivated, activateScan]
  | cons c cs ih =>
    cases k with
    | zero =>
      have h0 : activateScan 0 (c :: cs) = c :: cs := rfl
      rw [h0, newlyActivated_self]
      simp
    | succ m =>
      cases hc : c.active with
      | true =>
        simp only [activateScan, hc, if_true, newlyActivated, List.zip_cons_cons,
          List.countP_cons] at ih ⊢
        rw [ih (m + 1)]
        simp
      | false =>
        simp only [activateScan, hc, Bool.false_eq_true, if_false, newlyActivated,
          List.zip_cons_cons, List.countP_cons] at ih ⊢
        rw [ih m]
        simp only [Bool.not_false, Bool.true_and, Bool.and_self, if_true]
        omega

/-! ### Helper lemmas: observing `setConn`, `cascadeAt`, `stepConnAt` -/

theorem getConn_eq_connsOf (g : Graph) (vi ci : ℕ) :
    getConn g vi ci = (connsOf g vi)[ci]? := by
  unfold getConn connsOf
  cases g[vi]? <;> simp

theorem length_setConn (g : Graph) (vi ci : ℕ) (c : connection) :
    (setConn g vi ci c).length = g.length := length_modifyIdx ..

theorem length_cascadeAt (g : Graph) (ti : ℕ) :
    (cascadeAt g ti).length = g.length := length_modifyIdx ..

theorem connsOf_modifyIdx_ne (g : Graph) (i w : ℕ) (f : graph_vertex → graph_vertex)
    (h : w ≠ i) : connsOf (modifyIdx g i f) w = connsOf g w := by
  unfold connsOf
  rw [getElem?_modifyIdx_ne g i w f h]

theorem getConn_of_getElem (g : Graph) (vi ci : ℕ) (v : graph_vertex)
    (hg : g[vi]? = some v) : getConn g vi ci = v.connections[ci]? := by
  unfold getConn
  rw [hg]
  rfl

theorem getConn_of_getElem_none (g : Graph) (vi ci : ℕ)
    (hg : g[vi]? = none) : getConn g vi ci = none := by
  unfold getConn
  rw [hg]
  rfl

theorem getConn_setConn_self (g : Graph) (vi ci : ℕ) (c : connection) :
    getConn (setConn g vi ci c) vi ci = (getConn g vi ci).map fun _ => c := by
  cases hg : g[vi]? with
  | none =>
    rw [getConn_of_getElem_none _ _ _ hg,
      getConn_of_getElem_none (setConn g vi ci c) vi ci
        (by unfold setConn; rw [getElem?_modifyIdx_self, hg]; rfl)]
    rfl
  | some v =>
    rw [getConn_of_getElem _ _ _ _ hg,
      getConn_of_getElem (setConn g vi ci c) vi ci
        { v with connections := modifyIdx v.connections ci fun _ => c }
        (by unfold setConn; rw [getElem?_modifyIdx_self, hg]; rfl)]
    exact getElem?_modifyIdx_self ..

theorem getConn_setConn_ne (g : Graph) (vi ci vi' ci' : ℕ) (c : connection)
    (h : ¬(vi' = vi ∧ ci' = ci)) :
    getConn (setConn g vi ci c) vi' ci' = getConn g vi' ci' := by
  by_cases hv : vi' = vi
  · subst hv
    have hc : ci' ≠ ci := fun hc => h ⟨rfl, hc⟩
    cases hg : g[vi']? with
    | none =>
      rw [getConn_of_getElem_none _ _ _ hg,
        getConn_of_getElem_none (setConn g vi' ci c) vi' ci'
          (by unfold setConn; rw [getElem?_modifyIdx_self, hg]; rfl)]
    | some v =>
      rw [getConn_of_getElem _ _ _ _ hg,
        getConn_of_getElem (setConn g vi' ci c) vi' ci'
          { v with connections := modifyIdx v.connections ci fun _ => c }
          (by unfold setConn; rw [getElem?_modifyIdx_self, hg]; rfl)]
      exact getElem?_modifyIdx_ne _ _ _ _ hc
  · unfold getConn setConn
    rw [getElem?_modifyIdx_ne _ _ _ _ hv]

theorem getConn_cascadeAt (g : Graph) (ti vi ci : ℕ) :
    getConn (cascadeAt g ti) vi ci = (getConn g vi ci).map (cascadeMark g ti vi ci) := by
  by_cases hv : vi = ti
  · subst hv
    cases hg : g[vi]? with
    | none =>
      rw [getConn_of_getElem_none _ _ _ hg,
        getConn_of_getElem_none (cascadeAt g vi) vi ci
          (by unfold cascadeAt; rw [getElem?_modifyIdx_self, hg]; rfl)]
      rfl
    | some v =>
      rw [getConn_of_getElem _ _ _ _ hg,
        getConn_of_getElem (cascadeAt g vi) vi ci
          { v with connections := activateScan 3 v.connections }
          (by unfold cascadeAt; rw [getElem?_modifyIdx_self, hg]; rfl)]
      show (activateScan 3 v.connections)[ci]? = _
      rw [getElem?_activateScan]
      have hcs : connsOf g vi = v.connections := by unfold connsOf; rw [hg]
      cases hvc : v.connections[ci]? with
      | none => simp
      | some c => simp [cascadeMark, hcs]
  · unfold cascadeAt
    rw [show getConn (modifyIdx g ti _) vi ci = getConn g vi ci by
      unfold getConn; rw [getElem?_modifyIdx_ne _ _ _ _ hv]]
    cases hc : getConn g vi ci with
    | none => rfl
    | some c => simp [cascadeMark, hv]

theorem elapsed_cascadeMark (g : Graph) (ti vi ci : ℕ) (c : connection) :
    (cascadeMark g ti vi ci c).elapsed = c.elapsed := by
  unfold cascadeMark
  split <;> rfl

theorem target_cascadeMark (g : Graph) (ti vi ci : ℕ) (c : connection) :
    (cascadeMark g ti vi ci c).target_vertex = c.target_vertex := by
  unfold cascadeMark
  split <;> rfl

theorem active_cascadeMark (g : Graph) (ti vi ci : ℕ) (c : connection)
    (h : c.active = true) : (cascadeMark g ti vi ci c).active = true := by
  unfold cascadeMark
  split <;> simp [h]

theorem connCount_setConn (g : Graph) (vi ci : ℕ) (c : connection) (w : ℕ) :
    connCount (setConn g vi ci c) w = connCount g w := by
  by_cases hw : w = vi
  · subst hw
    unfold connCount connsOf setConn
    rw [getElem?_modifyIdx_self]
    cases g[w]? with
    | none => rfl
    | some v => simp [length_modifyIdx]
  · unfold connCount setConn
    rw [connsOf_modifyIdx_ne _ _ _ _ hw]

theorem connCount_cascadeAt (g : Graph) (ti w : ℕ) :
    connCount (cascadeAt g ti) w = connCount g w := by
  by_cases hw : w = ti
  · subst hw
    unfold connCount connsOf cascadeAt
    rw [getElem?_modifyIdx_self]
    cases g[w]? with
    | none => rfl
    | some v => simp [length_activateScan]
  · unfold connCount cascadeAt
    rw [connsOf_modifyIdx_ne _ _ _ _ hw]

/-- Reduction of a tick iteration when the connection is absent. -/
theorem stepConnAt_of_none (g : Graph) (vi ci : ℕ)
    (hc : getConn g vi ci = none) : stepConnAt g vi ci = g := by
  unfold stepConnAt
  rw [hc]

/-- Reduction of a tick iteration on an inactive or completed
connection: it is skipped. -/
theorem stepConnAt_of_skip (g : Graph) (vi ci : ℕ) (c : connection)
    (hc : getConn g vi ci = some c) (hskip : c.active = false ∨ 1 ≤ c.elapsed) :
    stepConnAt g vi ci = g := by
  unfold stepConnAt
  rw [hc]
  show (if c.active = false ∨ 1 ≤ c.elapsed then g else _) = g
  rw [if_pos hskip]

/-- Reduction of a tick iteration on an active, unfinished connection:
advance by the fixed step and cascade on completion. -/
theorem stepConnAt_of_adv (g : Graph) (vi ci : ℕ) (c : connection)
    (hc : getConn g vi ci = some c) (hact : c.active = true)
    (hlt : ¬(1 ≤ c.elapsed)) :
    stepConnAt g vi ci =
      if 1 ≤ c.elapsed + 1 / 50 then
        cascadeAt (setConn g vi ci { c with elapsed := c.elapsed + 1 / 50 })
          c.target_vertex
      else setConn g vi ci { c with elapsed := c.elapsed + 1 / 50 } := by
  unfold stepConnAt
  rw [hc]
  show (if c.active = false ∨ 1 ≤ c.elapsed then g else _) = _
  rw [if_neg (by simp [hact, hlt])]

/-- Case analysis for one tick iteration: it either does nothing, or
advances one connection (no completion), or advances it and runs the
cascade at its target. -/
theorem stepConnAt_cases (g : Graph) (vi ci : ℕ) :
    stepConnAt g vi ci = g ∨
    ∃ c, getConn g vi ci = some c ∧ c.active = true ∧ ¬(1 ≤ c.elapsed) ∧
      ((¬(1 ≤ c.elapsed + 1 / 50) ∧
          stepConnAt g vi ci = setConn g vi ci { c with elapsed := c.elapsed + 1 / 50 }) ∨
       (1 ≤ c.elapsed + 1 / 50 ∧
          stepConnAt g vi ci =
            cascadeAt (setConn g vi ci { c with elapsed := c.elapsed + 1 / 50 })
              c.target_vertex)) := by
  cases hc : getConn g vi ci with
  | none => exact Or.inl (stepConnAt_of_none g vi ci hc)
  | some c =>
    by_cases hskip : c.active = false ∨ 1 ≤ c.elapsed
    · exact Or.inl (stepConnAt_of_skip g vi ci c hc hskip)
    · have hact : c.active = true := by
        rcases Bool.eq_false_or_eq_true c.active with ht | hf
        · exact ht
        · exact absurd (Or.inl hf) hskip
      have hlt : ¬(1 ≤ c.elapsed) := fun h1 => hskip (Or.inr h1)
      have hadv := stepConnAt_of_adv g vi ci c hc hact hlt
      by_cases hdone : 1 ≤ c.elapsed + 1 / 50
      · rw [if_pos hdone] at hadv
        exact Or.inr ⟨c, rfl, hact, hlt, Or.inr ⟨hdone, hadv⟩⟩
      · rw [if_neg hdone] at hadv
        exact Or.inr ⟨c, rfl, hact, hlt, Or.inl ⟨hdone, hadv⟩⟩

theorem length_stepConnAt (g : Graph) (vi ci : ℕ) :
    (stepConnAt g vi ci).length = g.length := by
  rcases stepConnAt_cases g vi ci with h | ⟨c, _, _, _, ⟨_, h⟩ | ⟨_, h⟩⟩ <;>
    rw [h] <;> simp [length_cascadeAt, length_setConn]

theorem connCount_stepConnAt (g : Graph) (vi ci w : ℕ) :
    connCount (stepConnAt g vi ci) w = connCount g w := by
  rcases stepConnAt_cases g vi ci with h | ⟨c, _, _, _, ⟨_, h⟩ | ⟨_, h⟩⟩ <;>
    rw [h] <;> simp [connCount_cascadeAt, connCount_setConn]

/-- A tick iteration never changes the `elapsed` of any connection
other than the one it acts on. -/
theorem elapsed_stepConnAt_ne (g : Graph) (vi ci vi' ci' : ℕ)
    (h : ¬(vi = vi' ∧ ci = ci')) :
    elapsedAt (stepConnAt g vi' ci') vi ci = elapsedAt g vi ci := by
  rcases stepConnAt_cases g vi' ci' with heq | ⟨c, hc, hact, hlt, ⟨_, heq⟩ | ⟨_, heq⟩⟩
  · rw [heq]
  · rw [heq]
    unfold elapsedAt
    rw [getConn_setConn_ne _ _ _ _ _ _ h]
  · rw [heq]
    unfold elapsedAt
    rw [getConn_cascadeAt, getConn_setConn_ne _ _ _ _ _ _ h]
    cases getConn g vi ci with
    | none => rfl
    | some d => simp [elapsed_cascadeMark]

/-- A tick iteration never decreases any `elapsed`. -/
theorem elapsed_stepConnAt_mono (g : Graph) (vi ci vi' ci' : ℕ) :
    elapsedAt g vi ci ≤ elapsedAt (stepConnAt g vi' ci') vi ci := by
  by_cases h : vi = vi' ∧ ci = ci'
  · obtain ⟨rfl, rfl⟩ := h
    rcases stepConnAt_cases g vi ci with heq | ⟨c, hc, hact, hlt, ⟨_, heq⟩ | ⟨_, heq⟩⟩
    · rw [heq]
    · rw [heq]
      unfold elapsedAt
      rw [getConn_setConn_self, hc]
      simp only [Option.map_some', Option.getD_some]
      simp
    · rw [heq]
      unfold elapsedAt
      rw [getConn_cascadeAt, getConn_setConn_self, hc]
      simp only [Option.map_some', Option.map_map, Option.getD_some]
      simp [elapsed_cascadeMark]
  · rw [elapsed_stepConnAt_ne g vi ci vi' ci' h]

/-- Once `elapsed` has reached `1.0` it is never advanced again. -/
theorem elapsed_stepConnAt_of_ge_one (g : Graph) (vi ci vi' ci' : ℕ)
    (h1 : 1 ≤ elapsedAt g vi ci) :
    elapsedAt (stepConnAt g vi' ci') vi ci = elapsedAt g vi ci := by
  by_cases h : vi = vi' ∧ ci = ci'
  · obtain ⟨rfl, rfl⟩ := h
    rcases stepConnAt_cases g vi ci with heq | ⟨c, hc, hact, hlt, hrest⟩
    · rw [heq]
    · exfalso
      apply hlt
      unfold elapsedAt at h1
      rw [hc] at h1
      simpa using h1
  · exact elapsed_stepConnAt_ne g vi ci vi' ci' h

/-- A tick iteration never clears an `active` flag. -/
theorem active_stepConnAt_mono (g : Graph) (vi ci vi' ci' : ℕ)
    (h : activeAt g vi ci = true) :
    activeAt (stepConnAt g vi' ci') vi ci = true := by
  rcases stepConnAt_cases g vi' ci' with heq | ⟨c, hc, hact, hlt, ⟨_, heq⟩ | ⟨_, heq⟩⟩
  · rw [heq]
    exact h
  · rw [heq]
    unfold activeAt at h ⊢
    by_cases hi : vi = vi' ∧ ci = ci'
    · obtain ⟨rfl, rfl⟩ := hi
      rw [getConn_setConn_self, hc]
      simpa using hact
    · rw [getConn_setConn_ne _ _ _ _ _ _ hi]
      exact h
  · rw [heq]
    unfold activeAt at h ⊢
    rw [getConn_cascadeAt]
    by_cases hi : vi = vi' ∧ ci = ci'
    · obtain ⟨rfl, rfl⟩ := hi
      rw [getConn_setConn_self, hc]
      simp only [Option.map_some', Option.map_map, Option.getD_some]
      exact active_cascadeMark _ _ _ _ _ hact
    · rw [getConn_setConn_ne _ _ _ _ _ _ hi]
      cases hd : getConn g vi ci with
      | none => rw [hd] at h; simp at h
      | some d =>
        rw [hd] at h
        simp only [Option.map_some', Option.getD_some] at h
        simp only [Option.map_some', Option.map_map, Option.getD_some]
        exact active_cascadeMark _ _ _ _ _ h

/-- A tick iteration acting on an active, unfinished connection
advances exactly that connection's `elapsed` by `1/50`. -/
theorem elapsed_stepConnAt_own (g : Graph) (vi ci : ℕ) (c : connection)
    (hc : getConn g vi ci = some c) (hact : c.active = true)
    (hlt : ¬(1 ≤ c.elapsed)) :
    elapsedAt (stepConnAt g vi ci) vi ci = c.elapsed + 1 / 50 := by
  rw [stepConnAt_of_adv g vi ci c hc hact hlt]
  by_cases hdone : 1 ≤ c.elapsed + 1 / 50
  · rw [if_pos hdone]
    unfold elapsedAt
    rw [getConn_cascadeAt, getConn_setConn_self, hc]
    simp [elapsed_cascadeMark]
  · rw [if_neg hdone]
    unfold elapsedAt
    rw [getConn_setConn_self, hc]
    simp

/-! ### Helper lemmas: the full tick as a flat sequence of iterations -/

theorem runOps_nil (g : Graph) : runOps g [] = g := rfl

theorem runOps_cons (g : Graph) (p : ℕ × ℕ) (ops : List (ℕ × ℕ)) :
    runOps g (p :: ops) = runOps (stepConnAt g p.1 p.2) ops := rfl

theorem connCount_runOps (ops : List (ℕ × ℕ)) (g : Graph) (w : ℕ) :
    connCount (runOps g ops) w = connCount g w := by
  induction ops generalizing g with
  | nil => rfl
  | cons p ops ih => rw [runOps_cons, ih, connCount_stepConnAt]

theorem length_runOps (ops : List (ℕ × ℕ)) (g : Graph) :
    (runOps g ops).length = g.length := by
  induction ops generalizing g with
  | nil => rfl
  | cons p ops ih => rw [runOps_cons, ih, length_stepConnAt]

theorem elapsed_runOps_mono (ops : List (ℕ × ℕ)) (g : Graph) (vi ci : ℕ) :
    elapsedAt g vi ci ≤ elapsedAt (runOps g ops) vi ci := by
  induction ops generalizing g with
  | nil => exact le_refl _
  | cons p ops ih =>
    rw [runOps_cons]
    exact le_trans (elapsed_stepConnAt_mono g vi ci p.1 p.2) (ih _)

theorem elapsed_runOps_of_ge_one (ops : List (ℕ × ℕ)) (g : Graph) (vi ci : ℕ)
    (h1 : 1 ≤ elapsedAt g vi ci) :
    elapsedAt (runOps g ops) vi ci = elapsedAt g vi ci := by
  induction ops generalizing g with
  | nil => rfl
  | cons p ops ih =>
    rw [runOps_cons]
    have he := elapsed_stepConnAt_of_ge_one g vi ci p.1 p.2 h1
    rw [ih _ (he ▸ h1), he]

theorem active_runOps_mono (ops : List (ℕ × ℕ)) (g : Graph) (vi ci : ℕ)
    (h : activeAt g vi ci = true) :
    activeAt (runOps g ops) vi ci = true := by
  induction ops generalizing g with
  | nil => exact h
  | cons p ops ih =>
    rw [runOps_cons]
    exact ih _ (active_stepConnAt_mono g vi ci p.1 p.2 h)

theorem elapsed_runOps_frame (ops : List (ℕ × ℕ)) (g : Graph) (vi ci : ℕ)
    (h : (vi, ci) ∉ ops) :
    elapsedAt (runOps g ops) vi ci = elapsedAt g vi ci := by
  induction ops generalizing g with
  | nil => rfl
  | cons p ops ih =>
    rw [runOps_cons]
    have hp : ¬(vi = p.1 ∧ ci = p.2) := by
      rintro ⟨rfl, rfl⟩
      exact h (List.mem_cons_self ..)
    rw [ih _ (fun hm => h (List.mem_cons_of_mem _ hm)),
      elapsed_stepConnAt_ne g vi ci p.1 p.2 hp]

/-- If the sequence visits `(vi, ci)` exactly once, then a connection
that is active and unfinished at the start ends exactly `1/50` further
along. -/
theorem elapsed_runOps_single_visit (ops : List (ℕ × ℕ)) (g : Graph) (vi ci : ℕ)
    (hcount : ops.count (vi, ci) = 1)
    (hact : activeAt g vi ci = true) (hlt : ¬(1 ≤ elapsedAt g vi ci)) :
    elapsedAt (runOps g ops) vi ci = elapsedAt g vi ci + 1 / 50 := by
  induction ops generalizing g with
  | nil => simp at hcount
  | cons p ops ih =>
    by_cases hp : p = (vi, ci)
    · subst hp
      have hzero : (vi, ci) ∉ ops := by
        rw [List.count_cons_self] at hcount
        exact List.count_eq_zero.mp (by omega)
      obtain ⟨c, hc, hcact⟩ : ∃ c, getConn g vi ci = some c ∧ c.active = true := by
        unfold activeAt at hact
        cases hg : getConn g vi ci with
        | none => rw [hg] at hact; simp at hact
        | some c =>
          rw [hg] at hact
          simp only [Option.map_some', Option.getD_some] at hact
          exact ⟨c, rfl, hact⟩
      have hce : elapsedAt g vi ci = c.elapsed := by
        unfold elapsedAt; rw [hc]; rfl
      rw [runOps_cons, elapsed_runOps_frame ops _ vi ci hzero]
      rw [hce] at hlt ⊢
      exact elapsed_stepConnAt_own g vi ci c hc hcact hlt
    · have hcount' : ops.count (vi, ci) = 1 := by
        rw [List.count_cons_of_ne (fun he => hp he.symm) ops] at hcount
        exact hcount
      have hne : ¬(vi = p.1 ∧ ci = p.2) := by
        rintro ⟨rfl, rfl⟩
        exact hp rfl
      rw [runOps_cons]
      have hfr := elapsed_stepConnAt_ne g vi ci p.1 p.2 hne
      rw [ih _ hcount' (active_stepConnAt_mono g vi ci p.1 p.2 hact) (hfr ▸ hlt), hfr]

/-- `stepVertexConns` is `runOps` over the vertex's index pairs. -/
theorem stepVertexConns_eq_runOps (g : Graph) (vi : ℕ) :
    stepVertexConns g vi =
      runOps g ((List.range (connCount g vi)).map fun ci => (vi, ci)) := by
  unfold stepVertexConns runOps
  rw [List.foldl_map]

/-- One full tick visits exactly the index pairs of `stepOps`, in
order: the fold of `step_connections` flattens to `runOps`.  Connection
counts are stable during the tick, so the extents captured by the C++
range-for loops agree with those computed from the initial state. -/
theorem step_connections_eq_runOps (g : Graph) :
    step_connections g = runOps g (stepOps g) := by
  have key : ∀ (vs : List ℕ) (h : Graph), (∀ w, connCount h w = connCount g w) →
      vs.foldl (fun h vi => stepVertexConns h vi) h =
        runOps h (vs.flatMap fun vi =>
          (List.range (connCount g vi)).map fun ci => (vi, ci)) := by
    intro vs
    induction vs with
    | nil => intro h _; rfl
    | cons vi vs ih =>
      intro h hcc
      rw [List.foldl_cons, List.flatMap_cons]
      unfold runOps
      rw [List.foldl_append]
      have h1 : stepVertexConns h vi =
          runOps h ((List.range (connCount g vi)).map fun ci => (vi, ci)) := by
        rw [stepVertexConns_eq_runOps, hcc vi]
      rw [show (List.foldl (fun h p => stepConnAt h p.1 p.2) h
            ((List.range (connCount g vi)).map fun ci => (vi, ci))) =
          stepVertexConns h vi from h1.symm]
      exact ih (stepVertexConns h vi)
        (fun w => by
          rw [stepVertexConns_eq_runOps, connCount_runOps, hcc w])
  unfold step_connections stepOps
  exact key (List.range g.length) g (fun _ => rfl)

theorem stepOps_nodup (g : Graph) : (stepOps g).Nodup := by
  unfold stepOps
  rw [List.nodup_flatMap]
  constructor
  · intro vi _
    exact (List.nodup_range _).map (fun a b hab => by
      simpa using congrArg Prod.snd hab)
  · have : ∀ a b : ℕ, a ≠ b →
        (Function.onFun List.Disjoint fun vi =>
          (List.range (connCount g vi)).map fun ci => (vi, ci)) a b := by
      intro a b hab x hxa hxb
      obtain ⟨ca, _, rfl⟩ := List.mem_map.mp hxa
      obtain ⟨cb, _, hcb⟩ := List.mem_map.mp hxb
      exact hab (congrArg Prod.fst hcb).symm
    exact List.Pairwise.imp_of_mem (fun {a b} _ _ hab => this a b hab)
      ((List.nodup_range _).imp id)

theorem count_pair_eq_one (l : List (ℕ × ℕ)) (a : ℕ × ℕ)
    (h1 : l.Nodup) (h2 : a ∈ l) : l.count a = 1 := by
  induction l with
  | nil => simp at h2
  | cons b l ih =>
    rcases List.mem_cons.mp h2 with rfl | hm
    · rw [List.count_cons_self]
      have hnm : a ∉ l := (List.nodup_cons.mp h1).1
      rw [List.count_eq_zero.mpr hnm]
    · have hab : a ≠ b := fun he => (List.nodup_cons.mp h1).1 (he ▸ hm)
      rw [List.count_cons_of_ne hab]
      exact ih (List.nodup_cons.mp h1).2 hm

theorem stepOps_count_one (g : Graph) (vi ci : ℕ)
    (hvi : vi < g.length) (hci : ci < connCount g vi) :
    (stepOps g).count (vi, ci) = 1 := by
  apply count_pair_eq_one _ _ (stepOps_nodup g)
  unfold stepOps
  rw [List.mem_flatMap]
  exact ⟨vi, List.mem_range.mpr hvi,
    List.mem_map.mpr ⟨ci, List.mem_range.mpr hci, rfl⟩⟩

/-! ### Helper lemmas: a full tick (`step_connections`) -/

theorem length_step_connections (g : Graph) :
    (step_connections g).length = g.length := by
  rw [step_connections_eq_runOps]
  exact length_runOps ..

theorem connCount_step_connections (g : Graph) (w : ℕ) :
    connCount (step_connections g) w = connCount g w := by
  rw [step_connections_eq_runOps]
  exact connCount_runOps ..

theorem elapsed_step_mono (g : Graph) (vi ci : ℕ) :
    elapsedAt g vi ci ≤ elapsedAt (step_connections g) vi ci := by
  rw [step_connections_eq_runOps]
  exact elapsed_runOps_mono ..

theorem elapsed_step_of_ge_one (g : Graph) (vi ci : ℕ)
    (h1 : 1 ≤ elapsedAt g vi ci) :
    elapsedAt (step_connections g) vi ci = elapsedAt g vi ci := by
  rw [step_connections_eq_runOps]
  exact elapsed_runOps_of_ge_one _ _ _ _ h1

theorem active_step_mono (g : Graph) (vi ci : ℕ)
    (h : activeAt g vi ci = true) :
    activeAt (step_connections g) vi ci = true := by
  rw [step_connections_eq_runOps]
  exact active_runOps_mono _ _ _ _ h

theorem elapsed_step_once (g : Graph) (vi ci : ℕ)
    (hvi : vi < g.length) (hci : ci < connCount g vi)
    (hact : activeAt g vi ci = true) (hlt : ¬(1 ≤ elapsedAt g vi ci)) :
    elapsedAt (step_connections g) vi ci = elapsedAt g vi ci + 1 / 50 := by
  rw [step_connections_eq_runOps]
  exact elapsed_runOps_single_visit _ _ _ _ (stepOps_count_one g vi ci hvi hci)
    hact hlt

/-! ### Reachable-state invariant -/

theorem getConn_mem (g : Graph) (vi ci : ℕ) (c : connection)
    (hc : getConn g vi ci = some c) : ∃ v ∈ g, c ∈ v.connections := by
  unfold getConn at hc
  cases hg : g[vi]? with
  | none => rw [hg] at hc; simp at hc
  | some v =>
    rw [hg] at hc
    exact ⟨v, List.getElem?_mem hg, List.getElem?_mem hc⟩

theorem graphInv_setConn (g : Graph) (vi ci : ℕ) (c₀ : connection)
    (hInv : GraphInv g) (hc₀ : ConnInv g.length c₀) :
    GraphInv (setConn g vi ci c₀) := by
  intro v hv c hcm
  rw [length_setConn]
  unfold setConn at hv
  rcases mem_modifyIdx _ _ _ _ hv with hv' | ⟨w, hw, rfl⟩
  · exact hInv v hv' c hcm
  · simp only at hcm
    rcases mem_modifyIdx _ _ _ _ hcm with hc' | ⟨d, _, rfl⟩
    · exact hInv w hw c hc'
    · exact hc₀

theorem connInv_activate (N : ℕ) (c : connection) (h : ConnInv N c) :
    ConnInv N { c with active := true } := by
  refine ⟨h.1, h.2.1, ?_⟩
  intro hfalse
  simp at hfalse

theorem graphInv_cascadeAt (g : Graph) (ti : ℕ) (hInv : GraphInv g) :
    GraphInv (cascadeAt g ti) := by
  intro v hv c hcm
  rw [length_cascadeAt]
  unfold cascadeAt at hv
  rcases mem_modifyIdx _ _ _ _ hv with hv' | ⟨w, hw, rfl⟩
  · exact hInv v hv' c hcm
  · simp only at hcm
    rcases mem_activateScan _ _ _ hcm with hc' | ⟨d, hd, _, rfl⟩
    · exact hInv w hw c hc'
    · exact connInv_activate _ _ (hInv w hw d hd)

theorem graphInv_stepConnAt (g : Graph) (vi ci : ℕ) (hInv : GraphInv g) :
    GraphInv (stepConnAt g vi ci) := by
  rcases stepConnAt_cases g vi ci with heq | ⟨c, hc, hact, hlt, hbr⟩
  · rw [heq]; exact hInv
  · obtain ⟨v, hv, hcm⟩ := getConn_mem g vi ci c hc
    have hcInv := hInv v hv c hcm
    obtain ⟨k, hk50, hke⟩ := hcInv.2.1
    have hklt : k < 50 := by
      rcases Nat.lt_or_ge k 50 with h | h
      · exact h
      · exfalso
        apply hlt
        have : k = 50 := le_antisymm hk50 h
        rw [hke, this]
        norm_num
    have hcInv' : ConnInv g.length { c with elapsed := c.elapsed + 1 / 50 } := by
      refine ⟨hcInv.1, ⟨k + 1, by omega, ?_⟩, ?_⟩
      · show c.elapsed + 1 / 50 = ((k + 1 : ℕ) : ℚ) / 50
        rw [hke]
        push_cast
        ring
      · intro hfalse
        rw [show ({ c with elapsed := c.elapsed + 1 / 50 } : connection).active
            = c.active from rfl] at hfalse
        rw [hact] at hfalse
        simp at hfalse
    rcases hbr with ⟨_, heq⟩ | ⟨_, heq⟩
    · rw [heq]
      exact graphInv_setConn g vi ci _ hInv hcInv'
    · rw [heq]
      exact graphInv_cascadeAt _ _ (graphInv_setConn g vi ci _ hInv hcInv')

theorem graphInv_runOps (ops : List (ℕ × ℕ)) (g : Graph) (hInv : GraphInv g) :
    GraphInv (runOps g ops) := by
  induction ops generalizing g with
  | nil => exact hInv
  | cons p ops ih =>
    rw [runOps_cons]
    exact ih _ (graphInv_stepConnAt g p.1 p.2 hInv)

theorem graphInv_step_connections (g : Graph) (hInv : GraphInv g) :
    GraphInv (step_connections g) := by
  rw [step_connections_eq_runOps]
  exact graphInv_runOps _ _ hInv

theorem graphInv_stepN (g : Graph) (n : ℕ) (hInv : GraphInv g) :
    GraphInv (stepN g n) := by
  induction n generalizing g with
  | zero => exact hInv
  | succ m ih => exact ih _ (graphInv_step_connections g hInv)

theorem length_initConnections (ps : List Q3) (seed : ℕ → ℕ → Bool) :
    (initConnections ps seed).length = ps.length := by
  unfold initConnections
  rw [List.length_map, List.length_range]

theorem length_stepN (g : Graph) (n : ℕ) : (stepN g n).length = g.length := by
  induction n generalizing g with
  | zero => rfl
  | succ m ih => rw [stepN, ih, length_step_connections]

/-- Characterization of membership in a constructed vertex. -/
theorem mem_initConnections (ps : List Q3) (seed : ℕ → ℕ → Bool)
    (v : graph_vertex) (hv : v ∈ initConnections ps seed) :
    ∃ i < ps.length,
      v = { position := ps.getD i (0, 0, 0), connections := initConnsRow ps seed i } := by
  unfold initConnections at hv
  obtain ⟨i, hi, rfl⟩ := List.mem_map.mp hv
  exact ⟨i, List.mem_range.mp hi, rfl⟩

/-- Every connection produced by construction targets a valid vertex
index, starts with `elapsed = 0`, and does not point at its source. -/
theorem mem_initConnsRow (ps : List Q3) (seed : ℕ → ℕ → Bool)
    (i : ℕ) (c : connection) (hc : c ∈ initConnsRow ps seed i) :
    ∃ j < ps.length, i ≠ j ∧
      dist2 (ps.getD i (0, 0, 0)) (ps.getD j (0, 0, 0)) < (3 / 4) ^ 2 ∧
      c = { active := seed i j, elapsed := 0, target_vertex := j } := by
  unfold initConnsRow at hc
  obtain ⟨j, hj, hjc⟩ := List.mem_filterMap.mp hc
  by_cases hij : i = j
  · rw [if_pos hij] at hjc
    exact absurd hjc (by simp)
  · rw [if_neg hij] at hjc
    by_cases hd : dist2 (ps.getD i (0, 0, 0)) (ps.getD j (0, 0, 0)) < (3 / 4) ^ 2
    · rw [if_pos hd] at hjc
      exact ⟨j, List.mem_range.mp hj, hij, hd, (Option.some_inj.mp hjc).symm⟩
    · rw [if_neg hd] at hjc
      exact absurd hjc (by simp)

theorem graphInv_initConnections (ps : List Q3) (seed : ℕ → ℕ → Bool) :
    GraphInv (initConnections ps seed) := by
  intro v hv c hcm
  obtain ⟨i, hi, rfl⟩ := mem_initConnections ps seed v hv
  obtain ⟨j, hj, _, _, rfl⟩ := mem_initConnsRow ps seed i c hcm
  rw [length_initConnections]
  exact ⟨hj, ⟨0, by omega, by norm_num⟩, fun _ => rfl⟩

/-- The invariant at every reachable state. -/
theorem graphInv_reachable (ps : List Q3) (seed : ℕ → ℕ → Bool) (n : ℕ) :
    GraphInv (stepN (initConnections ps seed) n) :=
  graphInv_stepN _ n (graphInv_initConnections ps seed)

/-- Justification for the squared-distance embedding of the threshold
test: for nonnegative squared distance, comparing the Euclidean
distance against `0.75` is the same as comparing the squared distance
against `0.75²`. -/
theorem sqrt_dist2_lt_iff (a b : Q3) :
    Real.sqrt ((dist2 a b : ℚ) : ℝ) < 3 / 4 ↔ dist2 a b < (3 / 4) ^ 2 := by
  rw [Real.sqrt_lt' (by norm_num : (0 : ℝ) < 3 / 4),
    show ((3 : ℝ) / 4) ^ 2 = (((3 / 4 : ℚ) ^ 2 : ℚ) : ℝ) by norm_num]
  exact Rat.cast_lt

/-! ### Remaining helper lemmas for the claims -/

theorem dist2_comm (a b : Q3) : dist2 a b = dist2 b a := by
  unfold dist2
  ring

theorem connsOf_initConnections (ps : List Q3) (seed : ℕ → ℕ → Bool) (i : ℕ)
    (hi : i < ps.length) :
    connsOf (initConnections ps seed) i = initConnsRow ps seed i := by
  unfold connsOf initConnections
  rw [List.getElem?_map, List.getElem?_range hi]
  rfl

/-- The set of target indices produced by construction is independent
of the random seeding. -/
theorem initConnsRow_targets (ps : List Q3) (seed : ℕ → ℕ → Bool) (i : ℕ) :
    (initConnsRow ps seed i).map connection.target_vertex =
      (List.range ps.length).filterMap fun j =>
        if i = j then none
        else if dist2 (ps.getD i (0, 0, 0)) (ps.getD j (0, 0, 0)) < (3 / 4) ^ 2 then
          some j
        else none := by
  unfold initConnsRow
  rw [List.map_filterMap]
  apply List.filterMap_congr
  intro j _
  by_cases hij : i = j
  · rw [if_pos hij, if_pos hij]
    rfl
  · rw [if_neg hij, if_neg hij]
    by_cases hd : dist2 (ps.getD i (0, 0, 0)) (ps.getD j (0, 0, 0)) < (3 / 4) ^ 2
    · rw [if_pos hd, if_pos hd]
      rfl
    · rw [if_neg hd, if_neg hd]
      rfl

/-- The cascade scan leaves every `elapsed` unchanged. -/
theorem elapsed_map_activateScan (k : ℕ) (cs : List connection) :
    (activateScan k cs).map connection.elapsed = cs.map connection.elapsed := by
  apply List.ext_getElem?
  intro i
  rw [List.getElem?_map, List.getElem?_map, getElem?_activateScan]
  cases cs[i]? with
  | none => rfl
  | some d =>
    simp only [Option.map_some', Option.some.injEq]
    split <;> rfl

theorem connsOf_cascadeAt_self (g : Graph) (ti : ℕ) :
    connsOf (cascadeAt g ti) ti = activateScan 3 (connsOf g ti) := by
  unfold connsOf cascadeAt
  rw [getElem?_modifyIdx_self]
  cases g[ti]? with
  | none => rfl
  | some v => rfl

/-! ## The claims -/

/-- **C5.** After graph construction from any position list, for every
ordered pair of distinct vertex indices `(i, j)` whose positions pass
the `0.75` distance threshold (squared form), a directed edge from `i`
to `j` exists with `target_vertex = j`; every edge of vertex `i`
targets a distinct in-range vertex passing the threshold (so no edge
exists for pairs at or above the threshold or for `i = j`); and the
edge targets are independent of the random seeding. -/
theorem init_edge_coverage (ps : List Q3) (seed : ℕ → ℕ → Bool) (i j : ℕ)
    (hi : i < ps.length) (hj : j < ps.length) (hij : i ≠ j)
    (hd : dist2 (ps.getD i (0, 0, 0)) (ps.getD j (0, 0, 0)) < (3 / 4) ^ 2) :
    (∃ c ∈ connsOf (initConnections ps seed) i, c.target_vertex = j) ∧
    (∀ c ∈ connsOf (initConnections ps seed) i,
      c.target_vertex ≠ i ∧ c.target_vertex < ps.length ∧
      dist2 (ps.getD i (0, 0, 0)) (ps.getD c.target_vertex (0, 0, 0)) < (3 / 4) ^ 2) ∧
    (∀ seed' : ℕ → ℕ → Bool,
      (connsOf (initConnections ps seed) i).map connection.target_vertex =
        (connsOf (initConnections ps seed') i).map connection.target_vertex) := by
  refine ⟨?_, ?_, ?_⟩
  · rw [connsOf_initConnections ps seed i hi]
    refine ⟨{ active := seed i j, elapsed := 0, target_vertex := j }, ?_, rfl⟩
    unfold initConnsRow
    exact List.mem_filterMap.mpr ⟨j, List.mem_range.mpr hj,
      by rw [if_neg hij, if_pos hd]⟩
  · intro c hc
    rw [connsOf_initConnections ps seed i hi] at hc
    obtain ⟨j', hj', hij', hd', rfl⟩ := mem_initConnsRow ps seed i c hc
    exact ⟨fun he => hij' he.symm, hj', hd'⟩
  · intro seed'
    rw [connsOf_initConnections ps seed i hi, connsOf_initConnections ps seed' i hi,
      initConnsRow_targets, initConnsRow_targets]

/-- **C8.** In every state reachable from construction by any number of
ticks, the vertex count equals the city count and every connection's
`target_vertex` is a valid index into the graph, so the indexing
`graph_[conn->target_vertex]` performed by the cascade step never goes
out of range. -/
theorem target_indices_valid (ps : List Q3) (seed : ℕ → ℕ → Bool) (n : ℕ) :
    (stepN (initConnections ps seed) n).length = ps.length ∧
    ∀ v ∈ stepN (initConnections ps seed) n, ∀ c ∈ v.connections,
      c.target_vertex < (stepN (initConnections ps seed) n).length := by
  refine ⟨?_, ?_⟩
  · rw [length_stepN, length_initConnections]
  · intro v hv c hc
    exact (graphInv_reachable ps seed n v hv c hc).1

/-- **C9.** In every reachable state, a connection whose `active` flag
is `false` has `elapsed` exactly `0`; and the cascade scan writes no
`elapsed` field, so switching an inactive connection on leaves its
`elapsed` at `0`, as if it had been reset. -/
theorem inactive_elapsed_zero (ps : List Q3) (seed : ℕ → ℕ → Bool) (n : ℕ) :
    (∀ v ∈ stepN (initConnections ps seed) n, ∀ c ∈ v.connections,
      c.active = false → c.elapsed = 0) ∧
    (∀ cs : List connection,
      (activateScan 3 cs).map connection.elapsed = cs.map connection.elapsed) := by
  refine ⟨?_, fun cs => elapsed_map_activateScan 3 cs⟩
  intro v hv c hc
  exact (graphInv_reachable ps seed n v hv c hc).2.2

set_option maxRecDepth 100000 in
/-- **C3, code-bug evidence.** Under the program's exact IEEE float
semantics, the stored `elapsed` of a seeded edge has not reached `1.0`
after 50 ticks, jumps to `293994875097972736 / 2^58 ≈ 1.01999962 >
1.0` on tick 51, and stays there forever; and the render path
(src/main.cc line 239) passes that raw stored value as `tex_offset`
with no clamp, so the consumer reads a value strictly above `1.0` —
contradicting the claim that every consumer-read value stays at or
below `1.0`.  (The spec requires clamping on read; the code has no
such clamp.) -/
theorem tex_offset_unclamped_overshoot :
    elapsedAfterF 50 = 288230273072496640 ∧
    elapsedAfterF 50 < one58 ∧
    elapsedAfterF 51 = 293994875097972736 ∧
    one58 < elapsedAfterF 51 ∧
    (∀ n : ℕ, elapsedAfterF (51 + n) = elapsedAfterF 51) ∧
    elapsedAfterF 51 ∈ texOffsetsF (stepNF gF0 51) := by
  refine ⟨by decide, by decide, by decide, by decide, ?_, by decide⟩
  intro n
  induction n with
  | zero => rfl
  | succ m ih =>
    show elapsedAfterF ((51 + m) + 1) = elapsedAfterF 51
    rw [show elapsedAfterF ((51 + m) + 1) =
        if one58 ≤ elapsedAfterF (51 + m) then elapsedAfterF (51 + m)
        else stepElapsedF (elapsedAfterF (51 + m)) from rfl,
      ih, if_pos (by decide : one58 ≤ elapsedAfterF 51)]

/-- **C2.** Over one tick of `demo::step_connections`, applied to any
graph state: `elapsed` never decreases; a connection whose `elapsed`
has reached `1.0` is terminal (never advanced again); an `active` flag
is never cleared; and a connection that is active and unfinished at the
start of a tick is advanced by exactly the fixed step `0.02 = 1/50`
once during that tick. -/
theorem step_elapsed_props (g : Graph) (vi ci : ℕ) :
    elapsedAt g vi ci ≤ elapsedAt (step_connections g) vi ci ∧
    (1 ≤ elapsedAt g vi ci →
      elapsedAt (step_connections g) vi ci = elapsedAt g vi ci) ∧
    (activeAt g vi ci = true → activeAt (step_connections g) vi ci = true) ∧
    (activeAt g vi ci = true → ¬(1 ≤ elapsedAt g vi ci) →
      vi < g.length → ci < connCount g vi →
      elapsedAt (step_connections g) vi ci = elapsedAt g vi ci + 1 / 50) :=
  ⟨elapsed_step_mono g vi ci,
   fun h1 => elapsed_step_of_ge_one g vi ci h1,
   fun h => active_step_mono g vi ci h,
   fun hact hlt hvi hci => elapsed_step_once g vi ci hvi hci hact hlt⟩

/-- **C6.** For every graph state, the city-mesh update writes at most
one entry per vertex (never more than the vertex count); the count it
reports is exactly the number of vertices having at least one
connection and a nonzero maximal outgoing `elapsed`; each written entry
is the vertex's position paired with `min 1 (elapsed * 2)` of that
maximal `elapsed`; and a vertex without connections never contributes
an entry. -/
theorem update_cities_mesh_spec (g : Graph) :
    (update_cities_mesh g).length ≤ g.length ∧
    num_active_cities g =
      g.countP (fun v =>
        decide (v.connections ≠ [] ∧ maxElapsed v.connections ≠ 0)) ∧
    ∀ e ∈ update_cities_mesh g, ∃ v ∈ g, v.connections ≠ [] ∧
      maxElapsed v.connections ≠ 0 ∧
      e = (v.position, min 1 (maxElapsed v.connections * 2)) := by
  refine ⟨List.length_filterMap_le .., ?_, ?_⟩
  · unfold num_active_cities update_cities_mesh
    rw [List.length_filterMap_eq_countP]
    apply List.countP_congr
    intro v _
    constructor
    · intro hs
      by_cases hemp : v.connections.isEmpty
      · rw [if_pos hemp] at hs
        simp at hs
      · rw [if_neg hemp] at hs
        simp only at hs
        by_cases hz : maxElapsed v.connections = 0
        · rw [if_pos hz] at hs
          simp at hs
        · exact decide_eq_true ⟨by simpa [List.isEmpty_iff] using hemp, hz⟩
    · intro hd
      have hd' := of_decide_eq_true hd
      have hemp : ¬v.connections.isEmpty := by
        simpa [List.isEmpty_iff] using hd'.1
      rw [if_neg hemp]
      simp only
      rw [if_neg hd'.2]
      rfl
  · intro e he
    unfold update_cities_mesh at he
    obtain ⟨v, hv, hve⟩ := List.mem_filterMap.mp he
    by_cases hemp : v.connections.isEmpty
    · rw [if_pos hemp] at hve
      exact absurd hve (by simp)
    · rw [if_neg hemp] at hve
      simp only at hve
      by_cases hz : maxElapsed v.connections = 0
      · rw [if_pos hz] at hve
        exact absurd hve (by simp)
      · rw [if_neg hz] at hve
        exact ⟨v, hv, by simpa [List.isEmpty_iff] using hemp, hz,
          (Option.some_inj.mp hve).symm⟩

/-! ### Evaluation helpers for the two-vertex scenario and witnesses -/

theorem initConnsRow_pair_src (p0 p1 : Q3) (seed : ℕ → ℕ → Bool)
    (h01 : seed 0 1 = true) (hlt : dist2 p0 p1 < (3 / 4) ^ 2) :
    initConnsRow [p0, p1] seed 0 =
      [{ active := true, elapsed := 0, target_vertex := 1 }] := by
  unfold initConnsRow
  show List.filterMap _ [0, 1] = _
  simp [hlt, h01]

theorem initConnsRow_pair_tgt (p0 p1 : Q3) (seed : ℕ → ℕ → Bool)
    (h10 : seed 1 0 = false) (hlt : dist2 p0 p1 < (3 / 4) ^ 2) :
    initConnsRow [p0, p1] seed 1 =
      [{ active := false, elapsed := 0, target_vertex := 0 }] := by
  unfold initConnsRow
  show List.filterMap _ [0, 1] = _
  simp [dist2_comm p1 p0, hlt, h10]

/-- Construction on a two-city list below the threshold yields exactly
the two directed edges `0 → 1` and `1 → 0`. -/
theorem initConnections_pair (p0 p1 : Q3) (seed : ℕ → ℕ → Bool)
    (h01 : seed 0 1 = true) (h10 : seed 1 0 = false)
    (hlt : dist2 p0 p1 < (3 / 4) ^ 2) :
    initConnections [p0, p1] seed =
      [{ position := p0, connections := [{ active := true, elapsed := 0, target_vertex := 1 }] },
       { position := p1, connections := [{ active := false, elapsed := 0, target_vertex := 0 }] }] := by
  unfold initConnections
  show [({ position := p0, connections := initConnsRow [p0, p1] seed 0 } : graph_vertex),
    { position := p1, connections := initConnsRow [p0, p1] seed 1 }] = _
  rw [initConnsRow_pair_src p0 p1 seed h01 hlt, initConnsRow_pair_tgt p0 p1 seed h10 hlt]

theorem initW : initConnections psW seedW = gW0 :=
  initConnections_pair (4 / 5, 3 / 5, 0) (1, 0, 0) seedW rfl rfl (by norm_num [dist2])

theorem scaleSpec_eq (h t : ℝ) :
    1 + h * (1 - 4 * (t - 1 / 2) * (t - 1 / 2)) = scaleSpec h t := by
  unfold scaleSpec
  ring

theorem update_cities_mesh_singleton (p : Q3) (c : connection) (hz : c.elapsed ≠ 0) :
    update_cities_mesh [{ position := p, connections := [c] }] =
      [(p, min 1 (c.elapsed * 2))] := by
  unfold update_cities_mesh
  simp [List.filterMap_cons, maxElapsed, hz]

/-- **C1.** A tick iteration on which a connection transitions into the
completed state (its `elapsed` reaches `1.0`) performs exactly the
budget-3 scan of its target vertex's connections in stored order; that
scan switches exactly `min 3 (number of inactive)` connections from
inactive to active — so at most 3, and all of them if fewer than 3
exist — and position `i` is switched exactly when it was inactive with
fewer than 3 inactive predecessors, every already-active connection
being returned untouched. -/
theorem cascade_budget (g : Graph) (vi ci : ℕ) (c : connection)
    (hc : getConn g vi ci = some c) (hact : c.active = true)
    (hlt : ¬(1 ≤ c.elapsed)) (hge : 1 ≤ c.elapsed + 1 / 50) :
    stepConnAt g vi ci =
      cascadeAt (setConn g vi ci { c with elapsed := c.elapsed + 1 / 50 })
        c.target_vertex ∧
    connsOf (stepConnAt g vi ci) c.target_vertex =
      activateScan 3
        (connsOf (setConn g vi ci { c with elapsed := c.elapsed + 1 / 50 })
          c.target_vertex) ∧
    (∀ cs : List connection,
      (activateScan 3 cs).length = cs.length ∧
      newlyActivated cs (activateScan 3 cs) =
        min 3 (cs.countP fun e => !e.active) ∧
      ∀ i : ℕ, (activateScan 3 cs)[i]? = cs[i]?.map fun d =>
        if d.active = false ∧ ((cs.take i).countP fun e => !e.active) < 3
        then { d with active := true } else d) := by
  have hA : stepConnAt g vi ci =
      cascadeAt (setConn g vi ci { c with elapsed := c.elapsed + 1 / 50 })
        c.target_vertex := by
    rw [stepConnAt_of_adv g vi ci c hc hact hlt, if_pos hge]
  refine ⟨hA, ?_, fun cs =>
    ⟨length_activateScan 3 cs, newlyActivated_activateScan 3 cs,
     fun i => getElem?_activateScan 3 cs i⟩⟩
  rw [hA, connsOf_cascadeAt_self]

theorem cascade_budget_witness :
    stepConnAt gW49 0 0 =
      cascadeAt (setConn gW49 0 0
        { active := true, elapsed := 49 / 50 + 1 / 50, target_vertex := 1 }) 1 :=
  (cascade_budget gW49 0 0 { active := true, elapsed := 49 / 50, target_vertex := 1 }
    rfl rfl (by norm_num) (by norm_num)).1

set_option maxRecDepth 100000 in
/-- **C4, counterexample.** At a concrete instance of the claim's
premises — 2 vertices at distance `d` with `0 < d < 0.75` (squared
form: `dist2 = 2/5 < (3/4)²`), edge `0 → 1` alone seeded active —
construction creates exactly the two directed edges; but after 50
ticks of the program's float accumulation (`stepNF` on `gF0`, the
float state of that constructed graph) edge `0 → 1` has only reached
`288230273072496640 / 2^58 ≈ 0.99999964 < 1.0` and has not completed,
and edge `1 → 0` is still inactive with `elapsed = 0` — not "active
with elapsed 0" as the claim states: the 50 float increments of `0.02`
fall short of `1.0`, and the cascade only fires on tick 51. -/
theorem two_vertex_scenario_counterexample :
    0 < dist2 (4 / 5, 3 / 5, 0) (1, 0, 0) ∧
    dist2 (4 / 5, 3 / 5, 0) (1, 0, 0) < (3 / 4) ^ 2 ∧
    seedW 0 1 = true ∧ seedW 1 0 = false ∧
    initConnections [(4 / 5, 3 / 5, 0), (1, 0, 0)] seedW =
      [{ position := (4 / 5, 3 / 5, 0),
         connections := [{ active := true, elapsed := 0, target_vertex := 1 }] },
       { position := (1, 0, 0),
         connections := [{ active := false, elapsed := 0, target_vertex := 0 }] }] ∧
    stepNF gF0 50 =
      [{ connections := [{ active := true, elapsedS := 288230273072496640, target_vertex := 1 }] },
       { connections := [{ active := false, elapsedS := 0, target_vertex := 0 }] }] ∧
    (288230273072496640 : ℕ) < one58 :=
  ⟨by norm_num [dist2], by norm_num [dist2], rfl, rfl,
   initConnections_pair (4 / 5, 3 / 5, 0) (1, 0, 0) seedW rfl rfl (by norm_num [dist2]),
   by decide, by decide⟩

set_option maxRecDepth 100000 in
/-- **C4, amended.** For a 2-vertex graph whose positions are at
squared distance `d²` with `0 < d² < (3/4)²`, construction creates
exactly the 2 directed edges `0 → 1` and `1 → 0`.  Seeding `0 → 1`
alone: under the program's float arithmetic, 50 ticks do **not**
complete it — its stored `elapsed` reaches only `≈ 0.99999964 < 1.0`
and edge `1 → 0` is still inactive.  On the 51st tick its `elapsed`
reaches `≈ 1.01999962 ≥ 1.0`, the completion activates the single
sibling edge at the target, and — the sibling's source vertex being
visited later within that same tick — after 51 ticks edge `1 → 0` is
active with `elapsed` equal to one float step of `0.02` from `0`
(`stepElapsedF 0 = 10737418·2^29`, the binary32 value
`≈ 0.0199999996`), not `0`. -/
theorem two_vertex_scenario_amended (p0 p1 : Q3) (seed : ℕ → ℕ → Bool)
    (h01 : seed 0 1 = true) (h10 : seed 1 0 = false)
    (hpos : 0 < dist2 p0 p1) (hlt : dist2 p0 p1 < (3 / 4) ^ 2) :
    initConnections [p0, p1] seed =
      [{ position := p0, connections := [{ active := true, elapsed := 0, target_vertex := 1 }] },
       { position := p1, connections := [{ active := false, elapsed := 0, target_vertex := 0 }] }] ∧
    stepNF gF0 50 =
      [{ connections := [{ active := true, elapsedS := 288230273072496640, target_vertex := 1 }] },
       { connections := [{ active := false, elapsedS := 0, target_vertex := 0 }] }] ∧
    (288230273072496640 : ℕ) < one58 ∧
    stepNF gF0 51 =
      [{ connections := [{ active := true, elapsedS := 293994875097972736, target_vertex := 1 }] },
       { connections := [{ active := true, elapsedS := stepElapsedF 0, target_vertex := 0 }] }] ∧
    one58 ≤ (293994875097972736 : ℕ) ∧
    stepElapsedF 0 = 10737418 * 2 ^ 29 :=
  ⟨initConnections_pair p0 p1 seed h01 h10 hlt,
   by decide, by decide, by decide, by decide, by decide⟩

set_option maxRecDepth 100000 in
theorem two_vertex_scenario_amended_witness :
    initConnections [((4 : ℚ) / 5, (3 : ℚ) / 5, (0 : ℚ)), (1, 0, 0)] seedW =
      [{ position := (4 / 5, 3 / 5, 0),
         connections := [{ active := true, elapsed := 0, target_vertex := 1 }] },
       { position := (1, 0, 0),
         connections := [{ active := false, elapsed := 0, target_vertex := 0 }] }] ∧
    stepNF gF0 51 =
      [{ connections := [{ active := true, elapsedS := 293994875097972736, target_vertex := 1 }] },
       { connections := [{ active := true, elapsedS := stepElapsedF 0, target_vertex := 0 }] }] := by
  have h := two_vertex_scenario_amended (4 / 5, 3 / 5, 0) (1, 0, 0) seedW rfl rfl
    (by norm_num [dist2]) (by norm_num [dist2])
  exact ⟨h.1, h.2.2.2.1⟩

/-- **C7.** The edge-geometry generator produces exactly 256 samples;
sample `i` carries `t = i / 255` and is the renormalized linear blend
of the endpoint vectors scaled by `scale(t) = 1 + height·(1 − 4(t−½)²)`;
and `scale(0) = 1`, `scale(1) = 1`, `scale(½) = 1 + height`. -/
theorem build_geometry_samples (from_normal to_normal : R3) (max_height : ℝ) :
    (build_connection_geometry from_normal to_normal max_height).length = 256 ∧
    (∀ i : Fin 256,
      (build_connection_geometry from_normal to_normal max_height)[(i : ℕ)]? =
        some (rsmul (scaleSpec max_height (((i : ℕ) : ℝ) / 255))
            (normalize3 (radd from_normal
              (rsmul (((i : ℕ) : ℝ) / 255) (rsub to_normal from_normal)))),
          ((i : ℕ) : ℝ) / 255)) ∧
    scaleSpec max_height 0 = 1 ∧
    scaleSpec max_height 1 = 1 ∧
    scaleSpec max_height (1 / 2) = 1 + max_height := by
  refine ⟨?_, ?_, ?_, ?_, ?_⟩
  · unfold build_connection_geometry
    rw [List.length_map, List.length_range]
  · intro i
    unfold build_connection_geometry
    rw [List.getElem?_map, List.getElem?_range i.isLt]
    simp only [Option.map_some', Option.some.injEq]
    rw [show ((256 : ℝ) - 1) = 255 by norm_num]
    rw [show (0.5 : ℝ) = 1 / 2 by norm_num]
    rw [scaleSpec_eq]
  · unfold scaleSpec; ring_nf
  · unfold scaleSpec; ring_nf
  · unfold scaleSpec; ring_nf

/-- **C10.** The edge-geometry generator is a pure function of its
three arguments: two invocations with equal source, target and height
produce identical sample sequences.  (The source function reads no
global or hidden state; the embedding is accordingly a plain
function.) -/
theorem build_geometry_deterministic (f1 t1 : R3) (h1 : ℝ) (f2 t2 : R3) (h2 : ℝ)
    (hf : f1 = f2) (ht : t1 = t2) (hh : h1 = h2) :
    build_connection_geometry f1 t1 h1 = build_connection_geometry f2 t2 h2 := by
  rw [hf, ht, hh]

theorem build_geometry_deterministic_witness :
    build_connection_geometry ((1 : ℝ), (0 : ℝ), (0 : ℝ)) (0, 1, 0) (3 / 10) =
      build_connection_geometry (1, 0, 0) (0, 1, 0) (3 / 10) :=
  build_geometry_deterministic (1, 0, 0) (0, 1, 0) (3 / 10) (1, 0, 0) (0, 1, 0) (3 / 10)
    rfl rfl rfl

/-! ### Witnesses for the remaining claims -/

theorem init_edge_coverage_witness :
    ∃ c ∈ connsOf (initConnections psW seedW) 0, c.target_vertex = 1 :=
  (init_edge_coverage psW seedW 0 1 (by decide) (by decide) (by decide)
    (by show dist2 (4 / 5, 3 / 5, 0) (1, 0, 0) < (3 / 4) ^ 2; norm_num [dist2])).1

theorem target_indices_valid_witness :
    (0 : ℕ) < (stepN (initConnections psW seedW) 0).length := by
  have hv : ({ position := (1, 0, 0),
               connections := [{ active := false, elapsed := 0, target_vertex := 0 }] } : graph_vertex)
      ∈ stepN (initConnections psW seedW) 0 := by
    show _ ∈ initConnections psW seedW
    rw [initW]
    simp [gW0]
  exact (target_indices_valid psW seedW 0).2 _ hv
    { active := false, elapsed := 0, target_vertex := 0 } (by simp)

theorem inactive_elapsed_zero_witness :
    ({ position := (1, 0, 0),
       connections := [{ active := false, elapsed := 0, target_vertex := 0 }] } : graph_vertex)
      ∈ stepN (initConnections psW seedW) 0 ∧
    ({ active := false, elapsed := 0, target_vertex := 0 } : connection).elapsed = 0 := by
  have hv : ({ position := (1, 0, 0),
               connections := [{ active := false, elapsed := 0, target_vertex := 0 }] } : graph_vertex)
      ∈ stepN (initConnections psW seedW) 0 := by
    show _ ∈ initConnections psW seedW
    rw [initW]
    simp [gW0]
  exact ⟨hv, (inactive_elapsed_zero psW seedW 0).1 _ hv _ (by simp) rfl⟩

theorem step_elapsed_props_witness :
    elapsedAt (step_connections gW0) 0 0 = elapsedAt gW0 0 0 + 1 / 50 :=
  (step_elapsed_props gW0 0 0).2.2.2 rfl
    (by rw [show elapsedAt gW0 0 0 = 0 from rfl]; norm_num)
    (by decide) (by decide)

theorem update_cities_mesh_spec_witness :
    ∃ v ∈ gA, v.connections ≠ [] ∧ maxElapsed v.connections ≠ 0 ∧
      ((((4 : ℚ) / 5, (3 : ℚ) / 5, (0 : ℚ)) : Q3), min 1 ((1 / 2 : ℚ) * 2)) =
        (v.position, min 1 (maxElapsed v.connections * 2)) := by
  apply (update_cities_mesh_spec gA).2.2
  rw [show gA = [{ position := (4 / 5, 3 / 5, 0),
                   connections := [{ active := true, elapsed := 1 / 2, target_vertex := 1 }] }] from rfl,
    update_cities_mesh_singleton _ _ (by norm_num)]
  simp

end Globe
